import Mathlib

set_option maxRecDepth 8000

/-!
Verification of the BN254CX field configuration
(`config_field_BN254CX.h`) and of the finite-field-engine contract that
this configuration parameterises.

The only code supplied is the configuration header, which defines the
four preprocessor constants `MBITS_BN254CX`, `MOD8_BN254CX`,
`MODTYPE_BN254CX`, `MAXXES_BN254CX` behind the include guard
`CONFIG_FIELD_BN254CX_H`.  The field engine itself (construction,
addition, reduction, multiplication, inversion, square root) is not part
of the supplied sources; it is modelled here from the specification's
contract, over the modulus `p` of the BN254CX curve.
-/

/-- Reduction-strategy tag.  Modelled from the spec: the header assigns
`MODTYPE_BN254CX = NOT_SPECIAL`; the tag type itself lives in `amcl.h`,
which is not among the supplied sources.  `NOT_SPECIAL` means no
pseudo-Mersenne shortcut applies. -/
inductive ModType where
  | NOT_SPECIAL
  | PSEUDO_MERSENNE
  | MONTGOMERY_FRIENDLY
  | GENERALISED_MERSENNE
deriving DecidableEq

/-- `#define MBITS_BN254CX 254` (config_field_BN254CX.h, line 28). -/
def MBITS_BN254CX : Nat := 254

/-- `#define MOD8_BN254CX 3` (config_field_BN254CX.h, line 29). -/
def MOD8_BN254CX : Nat := 3

/-- `#define MODTYPE_BN254CX NOT_SPECIAL` (config_field_BN254CX.h, line 30). -/
def MODTYPE_BN254CX : ModType := ModType.NOT_SPECIAL

/-- `#define MAXXES_BN254CX 26` (config_field_BN254CX.h, line 31). -/
def MAXXES_BN254CX : Nat := 26

/-- Modelled from the spec: the paired big-integer configuration
`config_big_256_56.h` (included by the header but not among the supplied
sources) selects a base-2^56 limb radix. -/
def BASEBITS_256_56 : Nat := 56

/-- Modelled from the spec: the paired big-integer configuration
`config_big_256_56.h` (not among the supplied sources) selects 5 limbs,
enough for 256-bit values at 56 bits per limb. -/
def NLEN_256_56 : Nat := 5

/-! ## A model of the preprocessor surface of the header

The header's externally visible effect on a translation unit is the
macro table it leaves behind.  We model the table as an association list
in definition order and the header as a function on tables, guarded by
`CONFIG_FIELD_BN254CX_H` exactly as lines 20-21 and 34 of the source
are. -/

/-- The names `config_field_BN254CX.h` defines. -/
inductive PPSymbol where
  | CONFIG_FIELD_BN254CX_H
  | MBITS_BN254CX
  | MOD8_BN254CX
  | MODTYPE_BN254CX
  | MAXXES_BN254CX
deriving DecidableEq

/-- The replacement text of a defined name: the guard has none, the
numeric configuration constants expand to numbers, and `MODTYPE`
expands to a reduction-strategy tag. -/
inductive PPValue where
  | empty
  | num (n : Nat)
  | modtype (t : ModType)
deriving DecidableEq

/-- First definition of a name in the macro table, if any. -/
def ppLookup : List (PPSymbol × PPValue) → PPSymbol → Option PPValue
  | [], _ => none
  | (n, v) :: rest, s => if n = s then some v else ppLookup rest s

/-- The five definitions the body of `config_field_BN254CX.h` appends. -/
def configFieldBody : List (PPSymbol × PPValue) :=
  [(PPSymbol.CONFIG_FIELD_BN254CX_H, PPValue.empty),
   (PPSymbol.MBITS_BN254CX, PPValue.num 254),
   (PPSymbol.MOD8_BN254CX, PPValue.num 3),
   (PPSymbol.MODTYPE_BN254CX, PPValue.modtype ModType.NOT_SPECIAL),
   (PPSymbol.MAXXES_BN254CX, PPValue.num 26)]

/-- Including `config_field_BN254CX.h`: if the include guard
`CONFIG_FIELD_BN254CX_H` is already defined the body is skipped
(`#ifndef` line 20), otherwise the guard and the four configuration
constants are defined (lines 21 and 28-31). -/
def includeConfigFieldBN254CX (s : List (PPSymbol × PPValue)) :
    List (PPSymbol × PPValue) :=
  if (ppLookup s PPSymbol.CONFIG_FIELD_BN254CX_H).isSome then s
  else s ++ configFieldBody

/-! ## The modulus

Modelled from the spec: the field engine works over "the specific
254-bit prime with `p mod 8 == 3` for curve BN254CX".  The prime is not
spelled out in the supplied sources; the value below is the BN254CX
modulus `36 x^4 + 36 x^3 + 24 x^2 + 6 x + 1` at the curve parameter
`x = -0x4000000003C012B1`. -/
def p_BN254CX : Nat :=
  16283262549886230019726996094938013714788842227227418772989111988905620231603

/-- Fuel-bounded modular exponentiation by repeated squaring; the fuel
dominates the bit-length of the exponent.  Used so that concrete
computations with 254-bit exponents stay feasible. -/
def powMod : Nat → Nat → Nat → Nat → Nat
  | 0, _, _, m => 1 % m
  | fuel + 1, a, e, m =>
    if e = 0 then 1 % m
    else
      let r := powMod fuel a (e / 2) m
      if e % 2 = 0 then r * r % m else r * r % m * (a % m) % m

namespace FP

/-- A field element, modelled from the spec: the residue value carried
by the limb representation (possibly unreduced, i.e. not yet below the
modulus) together with the implicit addition-budget counter, which is
zero exactly on freshly reduced elements. -/
structure FieldElement where
  value : Nat
  budget : Nat
deriving DecidableEq

/-- Modelled from the spec: failure outcomes of the field engine.
`DivisionByZeroError` for inverting zero; `NoSquareRoot` for a
quadratic non-residue. -/
inductive FieldError where
  | DivisionByZeroError
  | NoSquareRoot
deriving DecidableEq

/-- Modelled from the spec: `fromInteger` constructs a reduced element,
taking any input integer modulo `p`; it never rejects. -/
def fromInteger (x : Int) : FieldElement :=
  ⟨(x % (p_BN254CX : Int)).toNat, 0⟩

/-- Modelled from the spec: `reduce` forces `0 <= value < p` and resets
the addition budget to zero. -/
def reduce (a : FieldElement) : FieldElement :=
  ⟨a.value % p_BN254CX, 0⟩

/-- Modelled from the spec: `add` is unreduced addition and increments
the implicit addition-budget counter associated with the result. -/
def add (a b : FieldElement) : FieldElement :=
  ⟨a.value + b.value, a.budget + b.budget + 1⟩

/-- Modelled from the spec: `mul` is a full multiply followed by a
reduction (the `NOT_SPECIAL` modulus admits no special-form shortcut);
it always returns a reduced element. -/
def mul (a b : FieldElement) : FieldElement :=
  ⟨a.value * b.value % p_BN254CX, 0⟩

/-- The multiplicative unit, reduced. -/
def one : FieldElement := ⟨1, 0⟩

/-- Modelled from the spec: `invert` fails with `DivisionByZeroError`
exactly on `a ≡ 0 (mod p)` and otherwise returns the inverse, computed
by the constant-time exponentiation `a^(p-2) mod p`. -/
def invert (a : FieldElement) : Except FieldError FieldElement :=
  if a.value % p_BN254CX = 0 then Except.error FieldError.DivisionByZeroError
  else Except.ok ⟨powMod 260 (a.value % p_BN254CX) (p_BN254CX - 2) p_BN254CX, 0⟩

/-- Modelled from the spec: `sqrt` uses `p mod 8 == 3` (so `p ≡ 3 mod 4`)
to compute the candidate root by direct exponentiation with `(p+1)/4`,
and returns `NoSquareRoot` when the candidate fails to square back to
`a`, i.e. when `a` is a non-residue. -/
def sqrt (a : FieldElement) : Except FieldError FieldElement :=
  let r := powMod 260 (a.value % p_BN254CX) ((p_BN254CX + 1) / 4) p_BN254CX
  if r * r % p_BN254CX = a.value % p_BN254CX then Except.ok ⟨r, 0⟩
  else Except.error FieldError.NoSquareRoot

end FP

/-- Equality of engine results (needed to check concrete runs of the
fallible operations). -/
instance {ε α : Type} [DecidableEq ε] [DecidableEq α] : DecidableEq (Except ε α) := fun x y =>
  match x, y with
  | Except.error e, Except.error f =>
    if h : e = f then isTrue (by rw [h])
    else isFalse (by intro hh; injection hh; contradiction)
  | Except.error _, Except.ok _ => isFalse (by intro h; exact Except.noConfusion h)
  | Except.ok _, Except.error _ => isFalse (by intro h; exact Except.noConfusion h)
  | Except.ok a, Except.ok b =>
    if h : a = b then isTrue (by rw [h])
    else isFalse (by intro hh; injection hh; contradiction)

/-! ## Correctness of `powMod` -/

theorem powMod_lt (fuel a e m : Nat) (hm : 0 < m) : powMod fuel a e m < m := by
  cases fuel with
  | zero => exact Nat.mod_lt _ hm
  | succ f =>
    simp only [powMod]
    split
    · exact Nat.mod_lt _ hm
    · split
      · exact Nat.mod_lt _ hm
      · exact Nat.mod_lt _ hm

theorem powMod_correct (m : Nat) (hm : 0 < m) :
    ∀ (fuel : Nat) (a e : Nat), e < 2 ^ fuel → powMod fuel a e m = a ^ e % m := by
  intro fuel
  induction fuel with
  | zero =>
    intro a e he
    have : e = 0 := by simpa using he
    subst this
    simp [powMod]
  | succ f ih =>
    intro a e he
    by_cases he0 : e = 0
    · subst he0; simp [powMod]
    · have hdiv : e / 2 < 2 ^ f := by
        have h2 : (2 : Nat) ^ (f + 1) = 2 ^ f * 2 := pow_succ 2 f
        rw [Nat.div_lt_iff_lt_mul (by norm_num : (0 : Nat) < 2)]
        omega
      have ihe := ih a (e / 2) hdiv
      by_cases hpar : e % 2 = 0
      · have hsplit : e = e / 2 + e / 2 := by omega
        simp only [powMod, if_neg he0, if_pos hpar, ihe]
        conv_rhs => rw [hsplit, pow_add, Nat.mul_mod]
      · have hsplit : e = e / 2 + e / 2 + 1 := by omega
        simp only [powMod, if_neg he0, if_neg hpar, ihe]
        conv_rhs =>
          rw [hsplit, pow_succ, pow_add, Nat.mul_mod,
            Nat.mul_mod (a ^ (e / 2)) (a ^ (e / 2)) m]

/-! ## Primality by Lucas certificate

`lucasCert` packages Mathlib's `lucas_primality` so that both the
Fermat condition and the maximal-order conditions are checked through
the executable `powMod`, and the prime factorisation of `p - 1` is
supplied as an explicit list. -/

theorem lucasCert (p a fuel : Nat) (L : List Nat)
    (hp : 2 ≤ p)
    (hfuel : p ≤ 2 ^ fuel)
    (hprod : L.prod = p - 1)
    (hL : ∀ q ∈ L, Nat.Prime q)
    (h1 : powMod fuel a (p - 1) p = 1)
    (hq : ∀ q ∈ L, powMod fuel a ((p - 1) / q) p ≠ 1) :
    Nat.Prime p := by
  have hp0 : 0 < p := by omega
  haveI : NeZero p := ⟨by omega⟩
  haveI : Fact (1 < p) := ⟨by omega⟩
  have hlt : ∀ e : Nat, e < 2 ^ fuel → powMod fuel a e p = a ^ e % p :=
    fun e he => powMod_correct p hp0 fuel a e he
  have pow_eq_one_iff : ∀ e : Nat, (a : ZMod p) ^ e = 1 ↔ a ^ e % p = 1 := by
    intro e
    have hcast : (a : ZMod p) ^ e = ((a ^ e % p : Nat) : ZMod p) := by
      rw [ZMod.natCast_mod, Nat.cast_pow]
    rw [hcast]
    constructor
    · intro h
      have hv := congrArg ZMod.val h
      rwa [ZMod.val_natCast, Nat.mod_mod_of_dvd _ dvd_rfl, ZMod.val_one] at hv
    · intro h
      rw [h, Nat.cast_one]
  apply lucas_primality p (a : ZMod p)
  · rw [pow_eq_one_iff, ← hlt (p - 1) (by omega)]
    exact h1
  · intro q hqprime hqdvd
    have hqL : q ∈ L := by
      apply mem_list_primes_of_dvd_prod hqprime.prime
      · intro r hr
        exact (hL r hr).prime
      · rw [hprod]
        exact hqdvd
    rw [Ne, pow_eq_one_iff, ← hlt ((p - 1) / q) (by
      have := Nat.div_le_self (p - 1) q
      omega)]
    exact hq q hqL

/-! ## The BN254CX modulus is prime (Pratt-style certificate chain) -/

theorem prime_147448406761 : Nat.Prime 147448406761 := by
  apply lucasCert 147448406761 7 260 [2, 2, 2, 3, 5, 523, 569, 4129]
  · norm_num
  · decide
  · decide
  · intro q hq
    simp only [List.mem_cons, List.not_mem_nil, or_false] at hq
    rcases hq with rfl|rfl|rfl|rfl|rfl|rfl|rfl|rfl
    all_goals norm_num
  · decide
  · decide

theorem prime_2359174508177 : Nat.Prime 2359174508177 := by
  apply lucasCert 2359174508177 3 260 [2, 2, 2, 2, 147448406761]
  · norm_num
  · decide
  · decide
  · intro q hq
    simp only [List.mem_cons, List.not_mem_nil, or_false] at hq
    rcases hq with rfl|rfl|rfl|rfl|rfl
    all_goals first | exact prime_147448406761 | norm_num
  · decide
  · decide

theorem prime_835147775894659 : Nat.Prime 835147775894659 := by
  apply lucasCert 835147775894659 2 260 [2, 3, 59, 2359174508177]
  · norm_num
  · decide
  · decide
  · intro q hq
    simp only [List.mem_cons, List.not_mem_nil, or_false] at hq
    rcases hq with rfl|rfl|rfl|rfl
    all_goals first | exact prime_2359174508177 | norm_num
  · decide
  · decide

theorem prime_18373251069682499 : Nat.Prime 18373251069682499 := by
  apply lucasCert 18373251069682499 2 260 [2, 11, 835147775894659]
  · norm_num
  · decide
  · decide
  · intro q hq
    simp only [List.mem_cons, List.not_mem_nil, or_false] at hq
    rcases hq with rfl|rfl|rfl
    all_goals first | exact prime_835147775894659 | norm_num
  · decide
  · decide

theorem prime_1832143 : Nat.Prime 1832143 := by
  apply lucasCert 1832143 6 260 [2, 3, 13, 83, 283]
  · norm_num
  · decide
  · decide
  · intro q hq
    simp only [List.mem_cons, List.not_mem_nil, or_false] at hq
    rcases hq with rfl|rfl|rfl|rfl|rfl
    all_goals norm_num
  · decide
  · decide

theorem prime_797254319 : Nat.Prime 797254319 := by
  apply lucasCert 797254319 7 260 [2, 7, 37, 431, 3571]
  · norm_num
  · decide
  · decide
  · intro q hq
    simp only [List.mem_cons, List.not_mem_nil, or_false] at hq
    rcases hq with rfl|rfl|rfl|rfl|rfl
    all_goals norm_num
  · decide
  · decide

theorem prime_6903772723369 : Nat.Prime 6903772723369 := by
  apply lucasCert 6903772723369 13 260 [2, 2, 2, 3, 3, 29, 241, 2237, 6133]
  · norm_num
  · decide
  · decide
  · intro q hq
    simp only [List.mem_cons, List.not_mem_nil, or_false] at hq
    rcases hq with rfl|rfl|rfl|rfl|rfl|rfl|rfl|rfl|rfl
    all_goals norm_num
  · decide
  · decide

theorem prime_60505378816863703748953762039 : Nat.Prime 60505378816863703748953762039 := by
  apply lucasCert 60505378816863703748953762039 6 260 [2, 3, 1832143, 797254319, 6903772723369]
  · norm_num
  · decide
  · decide
  · intro q hq
    simp only [List.mem_cons, List.not_mem_nil, or_false] at hq
    rcases hq with rfl|rfl|rfl|rfl|rfl
    all_goals first | exact prime_1832143 | exact prime_797254319 | exact prime_6903772723369 | norm_num
  · decide
  · decide

theorem prime_4503294334581531742627130601038693 : Nat.Prime 4503294334581531742627130601038693 := by
  apply lucasCert 4503294334581531742627130601038693 2 260 [2, 2, 23, 809, 60505378816863703748953762039]
  · norm_num
  · decide
  · decide
  · intro q hq
    simp only [List.mem_cons, List.not_mem_nil, or_false] at hq
    rcases hq with rfl|rfl|rfl|rfl|rfl
    all_goals first | exact prime_60505378816863703748953762039 | norm_num
  · decide
  · decide

theorem prime_376841297722951 : Nat.Prime 376841297722951 := by
  apply lucasCert 376841297722951 3 260 [2, 3, 3, 3, 5, 5, 571, 6367, 76781]
  · norm_num
  · decide
  · decide
  · intro q hq
    simp only [List.mem_cons, List.not_mem_nil, or_false] at hq
    rcases hq with rfl|rfl|rfl|rfl|rfl|rfl|rfl|rfl|rfl
    all_goals norm_num
  · decide
  · decide

theorem p_BN254CX_prime : Nat.Prime p_BN254CX := by
  apply lucasCert p_BN254CX 2 260
    [2, 3, 3, 3, 7, 29, 59, 251, 3217, 376841297722951, 18373251069682499,
     4503294334581531742627130601038693]
  · decide
  · decide
  · decide
  · intro q hq
    simp only [List.mem_cons, List.not_mem_nil, or_false] at hq
    rcases hq with rfl|rfl|rfl|rfl|rfl|rfl|rfl|rfl|rfl|rfl|rfl|rfl
    all_goals first
      | exact prime_376841297722951
      | exact prime_18373251069682499
      | exact prime_4503294334581531742627130601038693
      | norm_num
  · decide
  · decide

/-! ## Basic facts about the modulus and casts into `ZMod p` -/

theorem p_BN254CX_pos : 0 < p_BN254CX := by decide

theorem natCast_inj_of_lt {x y : Nat} (hx : x < p_BN254CX) (hy : y < p_BN254CX)
    (h : (x : ZMod p_BN254CX) = (y : ZMod p_BN254CX)) : x = y := by
  haveI : NeZero p_BN254CX := ⟨by decide⟩
  have hv := congrArg ZMod.val h
  rwa [ZMod.val_natCast_of_lt hx, ZMod.val_natCast_of_lt hy] at hv

theorem natCast_powMod (a e : Nat) (he : e < 2 ^ 260) :
    ((powMod 260 a e p_BN254CX : Nat) : ZMod p_BN254CX) = (a : ZMod p_BN254CX) ^ e := by
  rw [powMod_correct p_BN254CX p_BN254CX_pos 260 a e he, ZMod.natCast_mod, Nat.cast_pow]

/-- Fermat inversion: multiplying by `a^(p-2) mod p` really inverts any
`a` that is nonzero mod `p`. -/
theorem powMod_inv_eq_one (v : Nat) (hv : v % p_BN254CX ≠ 0) :
    v * powMod 260 (v % p_BN254CX) (p_BN254CX - 2) p_BN254CX % p_BN254CX = 1 := by
  haveI : Fact (Nat.Prime p_BN254CX) := ⟨p_BN254CX_prime⟩
  have hlt : v * powMod 260 (v % p_BN254CX) (p_BN254CX - 2) p_BN254CX % p_BN254CX
      < p_BN254CX := Nat.mod_lt _ p_BN254CX_pos
  apply natCast_inj_of_lt hlt (by decide)
  have hW : ((v % p_BN254CX : Nat) : ZMod p_BN254CX) = (v : ZMod p_BN254CX) :=
    ZMod.natCast_mod v p_BN254CX
  have hW0 : (v : ZMod p_BN254CX) ≠ 0 := by
    intro h0
    exact hv (Nat.dvd_iff_mod_eq_zero.mp
      ((ZMod.natCast_zmod_eq_zero_iff_dvd v p_BN254CX).mp h0))
  rw [ZMod.natCast_mod, Nat.cast_mul, natCast_powMod _ _ (by decide), hW]
  have hexp : p_BN254CX - 2 + 1 = p_BN254CX - 1 := by decide
  calc (v : ZMod p_BN254CX) * (v : ZMod p_BN254CX) ^ (p_BN254CX - 2)
      = (v : ZMod p_BN254CX) ^ (p_BN254CX - 1) := by
        rw [← pow_succ', hexp]
    _ = 1 := ZMod.pow_card_sub_one_eq_one hW0
    _ = ((1 : Nat) : ZMod p_BN254CX) := by rw [Nat.cast_one]

/-- Uniqueness of inverses mod `p`. -/
theorem inverse_unique_mod (v c d : Nat)
    (hc : v * c % p_BN254CX = 1) (hd : v * d % p_BN254CX = 1) :
    c % p_BN254CX = d % p_BN254CX := by
  haveI : Fact (Nat.Prime p_BN254CX) := ⟨p_BN254CX_prime⟩
  have cast_eq : ∀ w : Nat, v * w % p_BN254CX = 1 →
      (v : ZMod p_BN254CX) * (w : ZMod p_BN254CX) = 1 := by
    intro w hw
    have := congrArg (fun n : Nat => (n : ZMod p_BN254CX)) hw
    simpa [ZMod.natCast_mod, Nat.cast_mul] using this
  have h1 := cast_eq c hc
  have h2 := cast_eq d hd
  have : (c : ZMod p_BN254CX) = (d : ZMod p_BN254CX) := by
    calc (c : ZMod p_BN254CX) = (c : ZMod p_BN254CX) * ((v : ZMod p_BN254CX) * d) := by
          rw [h2, mul_one]
      _ = (d : ZMod p_BN254CX) * ((v : ZMod p_BN254CX) * c) := by ring
      _ = (d : ZMod p_BN254CX) := by rw [h1, mul_one]
  apply natCast_inj_of_lt (Nat.mod_lt _ p_BN254CX_pos) (Nat.mod_lt _ p_BN254CX_pos)
  rwa [ZMod.natCast_mod, ZMod.natCast_mod]

/-- The direct-exponentiation square-root candidate squares back to the
input whenever the input is a quadratic residue; this is where
`p ≡ 3 (mod 4)` (a consequence of `MOD8 = 3`) is used. -/
theorem sqrt_candidate_sq (v : Nat) (hroot : ∃ r : Nat, r * r % p_BN254CX = v % p_BN254CX) :
    powMod 260 (v % p_BN254CX) ((p_BN254CX + 1) / 4) p_BN254CX *
      powMod 260 (v % p_BN254CX) ((p_BN254CX + 1) / 4) p_BN254CX % p_BN254CX
      = v % p_BN254CX := by
  haveI : Fact (Nat.Prime p_BN254CX) := ⟨p_BN254CX_prime⟩
  obtain ⟨r, hr⟩ := hroot
  apply natCast_inj_of_lt (Nat.mod_lt _ p_BN254CX_pos) (Nat.mod_lt _ p_BN254CX_pos)
  have hW : ((v % p_BN254CX : Nat) : ZMod p_BN254CX) = (v : ZMod p_BN254CX) :=
    ZMod.natCast_mod v p_BN254CX
  rw [ZMod.natCast_mod, Nat.cast_mul, natCast_powMod _ _ (by decide), hW]
  have hsq : (v : ZMod p_BN254CX) = (r : ZMod p_BN254CX) * (r : ZMod p_BN254CX) := by
    have := congrArg (fun n : Nat => (n : ZMod p_BN254CX)) hr
    simpa [ZMod.natCast_mod, Nat.cast_mul] using this.symm
  have hhalf : (p_BN254CX + 1) / 4 + (p_BN254CX + 1) / 4 = (p_BN254CX + 1) / 2 := by decide
  rw [← pow_add, hhalf]
  by_cases hW0 : (v : ZMod p_BN254CX) = 0
  · rw [hW0, zero_pow (by decide : (p_BN254CX + 1) / 2 ≠ 0)]
  · have hissq : IsSquare (v : ZMod p_BN254CX) := ⟨(r : ZMod p_BN254CX), hsq⟩
    have heuler : (v : ZMod p_BN254CX) ^ (p_BN254CX / 2) = 1 :=
      (ZMod.euler_criterion p_BN254CX hW0).mp hissq
    have hsucc : (p_BN254CX + 1) / 2 = p_BN254CX / 2 + 1 := by decide
    rw [hsucc, pow_succ, heuler, one_mul]

/-! ## Helper lemmas for the preprocessor model and the addition chain -/

theorem ppLookup_append_of_none (s t : List (PPSymbol × PPValue)) (n : PPSymbol)
    (h : ppLookup s n = none) : ppLookup (s ++ t) n = ppLookup t n := by
  induction s with
  | nil => rfl
  | cons hd tl ih =>
    obtain ⟨m, v⟩ := hd
    by_cases hm : m = n
    · simp [ppLookup, hm] at h
    · simp only [ppLookup, if_neg hm] at h
      simpa [ppLookup, if_neg hm] using ih h

theorem includeConfigField_idem (s : List (PPSymbol × PPValue)) :
    includeConfigFieldBN254CX (includeConfigFieldBN254CX s) = includeConfigFieldBN254CX s := by
  by_cases h : (ppLookup s PPSymbol.CONFIG_FIELD_BN254CX_H).isSome
  · simp [includeConfigFieldBN254CX, h]
  · have hnone : ppLookup s PPSymbol.CONFIG_FIELD_BN254CX_H = none :=
      Option.not_isSome_iff_eq_none.mp h
    have hbody : ppLookup (s ++ configFieldBody) PPSymbol.CONFIG_FIELD_BN254CX_H
        = some PPValue.empty := by
      rw [ppLookup_append_of_none s configFieldBody _ hnone]
      rfl
    simp [includeConfigFieldBN254CX, h, hbody]

theorem foldl_add_value (ops : List FP.FieldElement) :
    ∀ x : FP.FieldElement,
      (List.foldl FP.add x ops).value = x.value + (ops.map FP.FieldElement.value).sum := by
  induction ops with
  | nil => intro x; simp
  | cons y ys ih =>
    intro x
    simp only [List.foldl_cons, List.map_cons, List.sum_cons, ih]
    simp [FP.add]
    omega

theorem foldl_add_budget (ops : List FP.FieldElement) :
    ∀ x : FP.FieldElement,
      (List.foldl FP.add x ops).budget
        = x.budget + (ops.map FP.FieldElement.budget).sum + ops.length := by
  induction ops with
  | nil => intro x; simp
  | cons y ys ih =>
    intro x
    simp only [List.foldl_cons, List.map_cons, List.sum_cons, List.length_cons, ih]
    simp [FP.add]
    omega

/-! ## The claims -/

/-- Claim C1: the BN254CX field configuration defines exactly the four
constants `MBITS_BN254CX = 254`, `MOD8_BN254CX = 3`,
`MODTYPE_BN254CX = NOT_SPECIAL` and `MAXXES_BN254CX = 26`; including the
header into an empty translation unit leaves exactly the guard plus
these four definitions in the macro table, each with the stated value
(immutability and sharing are definitional: the constants are fixed
`def`s that every user reads). -/
theorem config_constants_BN254CX :
    MBITS_BN254CX = 254 ∧ MOD8_BN254CX = 3 ∧ MODTYPE_BN254CX = ModType.NOT_SPECIAL
      ∧ MAXXES_BN254CX = 26
      ∧ includeConfigFieldBN254CX [] = configFieldBody
      ∧ ppLookup configFieldBody PPSymbol.MBITS_BN254CX = some (PPValue.num 254)
      ∧ ppLookup configFieldBody PPSymbol.MOD8_BN254CX = some (PPValue.num 3)
      ∧ ppLookup configFieldBody PPSymbol.MODTYPE_BN254CX
        = some (PPValue.modtype ModType.NOT_SPECIAL)
      ∧ ppLookup configFieldBody PPSymbol.MAXXES_BN254CX = some (PPValue.num 26) := by
  refine ⟨rfl, rfl, rfl, rfl, by decide, by decide, by decide, by decide, by decide⟩

/-- Claim C2: the addition-safety budget `MAXXES_BN254CX = 26` is
exactly the bit headroom of the paired base-2^56, 5-limb big-integer
representation over the 254-bit modulus: `56 * 5 - 254 = 280 - 254 = 26`. -/
theorem maxxes_is_headroom_BN254CX :
    MAXXES_BN254CX = BASEBITS_256_56 * NLEN_256_56 - MBITS_BN254CX
      ∧ BASEBITS_256_56 * NLEN_256_56 = 280
      ∧ MBITS_BN254CX = 254
      ∧ BASEBITS_256_56 * NLEN_256_56 - MBITS_BN254CX = 26 := by
  decide

/-- Claim C3: `fromInteger` is total and always returns a reduced
element `0 <= v < p` (the input is taken modulo `p`); in particular
`fromInteger p = fromInteger 0` and `fromInteger (p+1) = fromInteger 1`. -/
theorem fromInteger_reduced_BN254CX :
    (∀ x : Int, 0 ≤ (FP.fromInteger x).value ∧ (FP.fromInteger x).value < p_BN254CX
      ∧ (FP.fromInteger x).budget = 0)
    ∧ FP.fromInteger (p_BN254CX : Int) = FP.fromInteger 0
    ∧ FP.fromInteger ((p_BN254CX : Int) + 1) = FP.fromInteger 1 := by
  refine ⟨?_, by decide, by decide⟩
  intro x
  refine ⟨Nat.zero_le _, ?_, rfl⟩
  have hp : (0 : Int) < (p_BN254CX : Int) := by exact_mod_cast p_BN254CX_pos
  have h1 : 0 ≤ x % (p_BN254CX : Int) := Int.emod_nonneg x (by omega)
  have h2 : x % (p_BN254CX : Int) < (p_BN254CX : Int) := Int.emod_lt_of_pos x hp
  show (x % (p_BN254CX : Int)).toNat < p_BN254CX
  omega

/-- Claim C4: for reduced `a, b`, `reduce (add a b)` is `(a + b) mod p`;
concretely `add (fromInteger 5) (fromInteger (p-3))` reduced equals
`fromInteger 2`. -/
theorem add_then_reduce_BN254CX :
    (∀ a b : FP.FieldElement, a.budget = 0 → a.value < p_BN254CX →
      b.budget = 0 → b.value < p_BN254CX →
      FP.reduce (FP.add a b) = ⟨(a.value + b.value) % p_BN254CX, 0⟩)
    ∧ FP.reduce (FP.add (FP.fromInteger 5) (FP.fromInteger ((p_BN254CX : Int) - 3)))
      = FP.fromInteger 2 := by
  exact ⟨fun a b _ _ _ _ => rfl, by decide⟩

theorem add_then_reduce_BN254CX_witness :
    FP.reduce (FP.add (FP.fromInteger 5) (FP.fromInteger 2))
      = ⟨((FP.fromInteger 5).value + (FP.fromInteger 2).value) % p_BN254CX, 0⟩ :=
  add_then_reduce_BN254CX.1 (FP.fromInteger 5) (FP.fromInteger 2)
    rfl (by decide) rfl (by decide)

/-- Claim C5: `reduce` is idempotent, and its result satisfies
`0 <= value < p` with the addition budget reset to zero. -/
theorem reduce_idempotent_BN254CX :
    ∀ a : FP.FieldElement,
      FP.reduce (FP.reduce a) = FP.reduce a
      ∧ (FP.reduce a).value < p_BN254CX ∧ (FP.reduce a).budget = 0 := by
  intro a
  refine ⟨?_, Nat.mod_lt _ p_BN254CX_pos, rfl⟩
  show (⟨a.value % p_BN254CX % p_BN254CX, 0⟩ : FP.FieldElement)
    = ⟨a.value % p_BN254CX, 0⟩
  rw [Nat.mod_mod_of_dvd _ dvd_rfl]

/-- Claim C6: `invert` fails with `DivisionByZeroError` exactly when the
input is `0 mod p`; otherwise it succeeds and returns the unique
multiplicative inverse, so `mul a (invert a) = 1`. -/
theorem invert_spec_BN254CX :
    ∀ a : FP.FieldElement,
      (FP.invert a = Except.error FP.FieldError.DivisionByZeroError
        ↔ a.value % p_BN254CX = 0)
      ∧ (a.value % p_BN254CX ≠ 0 →
          ∃ b : FP.FieldElement, FP.invert a = Except.ok b ∧ FP.mul a b = FP.one
            ∧ ∀ c : FP.FieldElement, FP.mul a c = FP.one →
              c.value % p_BN254CX = b.value) := by
  intro a
  constructor
  · by_cases h : a.value % p_BN254CX = 0 <;> simp [FP.invert, h]
  · intro h
    refine ⟨⟨powMod 260 (a.value % p_BN254CX) (p_BN254CX - 2) p_BN254CX, 0⟩, ?_, ?_, ?_⟩
    · simp [FP.invert, h]
    · have hval := powMod_inv_eq_one a.value h
      simp [FP.mul, FP.one, hval]
    · intro c hc
      have hcval : a.value * c.value % p_BN254CX = 1 := by
        simpa [FP.mul, FP.one] using congrArg FP.FieldElement.value hc
      have hb := powMod_inv_eq_one a.value h
      have huniq := inverse_unique_mod a.value c.value
        (powMod 260 (a.value % p_BN254CX) (p_BN254CX - 2) p_BN254CX) hcval hb
      rwa [Nat.mod_eq_of_lt (powMod_lt 260 _ _ _ p_BN254CX_pos)] at huniq

theorem invert_spec_BN254CX_witness :
    (⟨5, 0⟩ : FP.FieldElement).value % p_BN254CX ≠ 0
    ∧ ∃ b : FP.FieldElement, FP.invert ⟨5, 0⟩ = Except.ok b ∧ FP.mul ⟨5, 0⟩ b = FP.one
        ∧ ∀ c : FP.FieldElement, FP.mul ⟨5, 0⟩ c = FP.one →
          c.value % p_BN254CX = b.value :=
  ⟨by decide, (invert_spec_BN254CX ⟨5, 0⟩).2 (by decide)⟩

/-- Claim C7: `sqrt` returns `NoSquareRoot` exactly on quadratic
non-residues, any successful result squares back to `reduce a`, and the
direct-exponentiation algorithm is the variant selected by the
configured residue class `p mod 8 = MOD8_BN254CX = 3`. -/
theorem sqrt_spec_BN254CX :
    p_BN254CX % 8 = MOD8_BN254CX
    ∧ ∀ a : FP.FieldElement,
      (FP.sqrt a = Except.error FP.FieldError.NoSquareRoot
        ↔ ¬∃ r : Nat, r * r % p_BN254CX = a.value % p_BN254CX)
      ∧ (∀ r : FP.FieldElement, FP.sqrt a = Except.ok r → FP.mul r r = FP.reduce a) := by
  refine ⟨by decide, ?_⟩
  intro a
  by_cases hc : powMod 260 (a.value % p_BN254CX) ((p_BN254CX + 1) / 4) p_BN254CX *
      powMod 260 (a.value % p_BN254CX) ((p_BN254CX + 1) / 4) p_BN254CX % p_BN254CX
      = a.value % p_BN254CX
  · constructor
    · simp only [FP.sqrt, if_pos hc]
      constructor
      · intro h
        exact absurd h (by simp)
      · intro hnex
        exact absurd ⟨_, hc⟩ hnex
    · intro r hr
      simp only [FP.sqrt, if_pos hc] at hr
      injection hr with hr
      subst hr
      simp [FP.mul, FP.reduce, hc]
  · constructor
    · simp only [FP.sqrt, if_neg hc]
      constructor
      · intro _ hex
        exact hc (sqrt_candidate_sq a.value hex)
      · intro _
        trivial
    · intro r hr
      simp only [FP.sqrt, if_neg hc] at hr
      exact absurd hr (by simp)

theorem sqrt_spec_BN254CX_witness :
    FP.mul ⟨p_BN254CX - 2, 0⟩ ⟨p_BN254CX - 2, 0⟩ = FP.reduce ⟨4, 0⟩ :=
  (sqrt_spec_BN254CX.2 ⟨4, 0⟩).2 ⟨p_BN254CX - 2, 0⟩ (by decide)

/-- Claim C8: a chain of at most `MAXXES` (26) unreduced additions of
reduced (hence near-maximal at worst `p-1`) operands starting from a
reduced element never overflows the `2^(56*5) = 2^280` capacity of the
limb representation, and the addition budget counts exactly the chained
additions (one more addition is, per the spec's stated policy, a
caller-side reduction obligation; the model does not auto-reduce). -/
theorem addition_budget_safe_BN254CX :
    ∀ (x : FP.FieldElement) (ops : List FP.FieldElement),
      x.budget = 0 → x.value < p_BN254CX →
      (∀ y ∈ ops, y.budget = 0 ∧ y.value < p_BN254CX) →
      ops.length ≤ MAXXES_BN254CX →
      (List.foldl FP.add x ops).value < 2 ^ (BASEBITS_256_56 * NLEN_256_56)
      ∧ (List.foldl FP.add x ops).budget = ops.length := by
  intro x ops hxb hxv hops hlen
  constructor
  · rw [foldl_add_value]
    have hsum : (ops.map FP.FieldElement.value).sum ≤ ops.length * (p_BN254CX - 1) := by
      have hb := List.sum_le_card_nsmul (ops.map FP.FieldElement.value) (p_BN254CX - 1) ?_
      · simpa [smul_eq_mul, List.length_map] using hb
      · intro v hv
        simp only [List.mem_map] at hv
        obtain ⟨y, hy, rfl⟩ := hv
        have := (hops y hy).2
        omega
    have hlen26 : ops.length * (p_BN254CX - 1) ≤ 26 * (p_BN254CX - 1) :=
      Nat.mul_le_mul_right _ (by simpa [MAXXES_BN254CX] using hlen)
    have hchain := le_trans hsum hlen26
    have hbound : 27 * (p_BN254CX - 1) < 2 ^ (BASEBITS_256_56 * NLEN_256_56) := by decide
    omega
  · rw [foldl_add_budget]
    have hb : (ops.map FP.FieldElement.budget).sum = 0 := by
      apply List.sum_eq_zero
      intro v hv
      simp only [List.mem_map] at hv
      obtain ⟨y, hy, rfl⟩ := hv
      exact (hops y hy).1
    omega

theorem addition_budget_safe_BN254CX_witness :
    (List.foldl FP.add ⟨p_BN254CX - 1, 0⟩
        (List.replicate 26 (⟨p_BN254CX - 1, 0⟩ : FP.FieldElement))).value
      < 2 ^ (BASEBITS_256_56 * NLEN_256_56)
    ∧ (List.foldl FP.add ⟨p_BN254CX - 1, 0⟩
        (List.replicate 26 (⟨p_BN254CX - 1, 0⟩ : FP.FieldElement))).budget
      = (List.replicate 26 (⟨p_BN254CX - 1, 0⟩ : FP.FieldElement)).length :=
  addition_budget_safe_BN254CX ⟨p_BN254CX - 1, 0⟩ _ rfl (by decide) (by decide) (by decide)

/-- Claim C9: every modelled field-engine operation is deterministic:
identical inputs give identical outputs.  In this pure-function model
there is no source of randomness, so equal arguments yield equal
results for each of the six operations. -/
theorem determinism_BN254CX :
    ∀ (x y : Int) (a a' b b' : FP.FieldElement),
      x = y → a = a' → b = b' →
      FP.fromInteger x = FP.fromInteger y ∧ FP.add a b = FP.add a' b'
      ∧ FP.mul a b = FP.mul a' b' ∧ FP.reduce a = FP.reduce a'
      ∧ FP.invert a = FP.invert a' ∧ FP.sqrt a = FP.sqrt a' := by
  intro x y a a' b b' hx ha hb
  subst hx; subst ha; subst hb
  exact ⟨rfl, rfl, rfl, rfl, rfl, rfl⟩

theorem determinism_BN254CX_witness :
    FP.fromInteger 7 = FP.fromInteger 7 ∧ FP.add FP.one FP.one = FP.add FP.one FP.one
    ∧ FP.mul FP.one FP.one = FP.mul FP.one FP.one ∧ FP.reduce FP.one = FP.reduce FP.one
    ∧ FP.invert FP.one = FP.invert FP.one ∧ FP.sqrt FP.one = FP.sqrt FP.one :=
  determinism_BN254CX 7 7 FP.one FP.one FP.one FP.one rfl rfl rfl

/-- Claim C10: including `config_field_BN254CX.h` is idempotent thanks
to the `CONFIG_FIELD_BN254CX_H` include guard: a second include changes
nothing, and any positive number of includes leaves exactly the macro
table of a single include, with no redefinition. -/
theorem include_idempotent_BN254CX :
    ∀ (s : List (PPSymbol × PPValue)) (n : Nat),
      includeConfigFieldBN254CX (includeConfigFieldBN254CX s) = includeConfigFieldBN254CX s
      ∧ (1 ≤ n → includeConfigFieldBN254CX^[n] s = includeConfigFieldBN254CX s) := by
  intro s n
  refine ⟨includeConfigField_idem s, ?_⟩
  intro hn
  induction n with
  | zero => omega
  | succ k ih =>
    cases Nat.eq_zero_or_pos k with
    | inl h0 =>
      subst h0
      simp
    | inr hk =>
      rw [Function.iterate_succ_apply', ih hk, includeConfigField_idem]

theorem include_idempotent_BN254CX_witness :
    includeConfigFieldBN254CX^[3] [] = includeConfigFieldBN254CX [] :=
  (include_idempotent_BN254CX [] 3).2 (by decide)
